import Mathlib

/-!
# Verification of the GitHub release monitor's release-tracking core

Shallow embedding of `src/github_release_monitor.py`.  The persisted state
model (`Release`, `RepoConfig`, `ReleaseHistory`), the change-detection
algorithm (`GitHubReleaseAgent.check_for_new_releases` and its helpers
`_get_repo_index`, `_ensure_repo_exists`, `get_releases`), and the
orchestration functions (`check_all_repositories`,
`ReleaseMonitorOrchestrator.initialize`, the per-cycle body of
`start_monitoring`) are translated into pure Lean functions.  Python's
in-place mutation of `self.history` becomes explicit state passing; the
network fetch becomes an `Except`-valued collaborator argument (the
`requests` exception branch of `get_releases` is the `Except.error` case);
file writes done by `_save_history` are recorded in an explicit save log.
-/

set_option autoImplicit false

/-- The `Release` pydantic model (source lines 29-35).  GitHub release ids
are unbounded Python ints, embedded as `Int`. -/
structure Release where
  id : Int
  tag_name : String
  name : String
  published_at : String
  html_url : String
  body : Option String
deriving DecidableEq, Repr

/-- The `RepoConfig` pydantic model (source lines 38-42): one tracked
repository with its advisory last-check timestamp (kept as a string, as in
the source) and the ordered list of previously seen releases. -/
structure RepoConfig where
  owner : String
  repo : String
  latest_check : Option String
  releases : List Release
deriving DecidableEq, Repr

/-- The `ReleaseHistory` pydantic model (source lines 45-46): the whole
persisted tracking store. -/
structure ReleaseHistory where
  repositories : List RepoConfig
deriving DecidableEq, Repr

/-- A raw release record as returned by the GitHub API (a JSON object in
`releases_data`).  `name` is `none` when the JSON value is `null`; `body`
is `none` when the key is absent and `some none` when the key holds
`null`, matching Python's `release_data.get('body', '')` semantics. -/
structure RawRelease where
  id : Int
  tag_name : String
  name : Option String
  published_at : String
  html_url : String
  body : Option (Option String)
deriving DecidableEq, Repr

/-- Construction of a `Release` from a raw record (source lines 161-168).
`release_data['name'] or release_data['tag_name']` falls back to the tag
when the name is `null` or the empty string; `release_data.get('body', '')`
yields the stored value when the key is present (possibly `null`) and the
default `''` when absent. -/
def mkRelease (rd : RawRelease) : Release :=
  { id := rd.id
    tag_name := rd.tag_name
    name :=
      match rd.name with
      | some s => if s = "" then rd.tag_name else s
      | none => rd.tag_name
    published_at := rd.published_at
    html_url := rd.html_url
    body :=
      match rd.body with
      | some v => v
      | none => some "" }

/-- First index of the entry keyed `(owner, repo)`, or `none`.  This is
`_get_repo_index` (source lines 106-111); the Python function encodes the
`none` case as the sentinel `-1`, recovered below in `get_repo_index`. -/
def findRepoIdx : List RepoConfig → String → String → Option Nat
  | [], _, _ => none
  | rc :: rest, o, r =>
    if rc.owner = o ∧ rc.repo = r then some 0
    else (findRepoIdx rest o r).map (fun n => n + 1)

/-- `_get_repo_index` with its literal `-1` sentinel (source lines 106-111). -/
def get_repo_index (h : ReleaseHistory) (owner repo : String) : Int :=
  match findRepoIdx h.repositories owner repo with
  | some i => (i : Int)
  | none => -1

/-- First entry keyed `(owner, repo)`, or `none`; the entry that
`self.history.repositories[repo_index]` denotes after `_get_repo_index`. -/
def findRepo : List RepoConfig → String → String → Option RepoConfig
  | [], _, _ => none
  | rc :: rest, o, r =>
    if rc.owner = o ∧ rc.repo = r then some rc else findRepo rest o r

/-- `_ensure_repo_exists` (source lines 113-120): return the index of the
existing entry, or append a fresh empty `RepoConfig(owner=owner, repo=repo)`
and return its position `len - 1`.  The Python test `index == -1`
corresponds to the `none` branch of `findRepoIdx`. -/
def ensure_repo_exists (h : ReleaseHistory) (owner repo : String) :
    ReleaseHistory × Nat :=
  match findRepoIdx h.repositories owner repo with
  | some i => (h, i)
  | none =>
    (⟨h.repositories ++ [⟨owner, repo, none, []⟩]⟩, h.repositories.length)

/-- List indexing, `self.history.repositories[i]`. -/
def nthRepo : List RepoConfig → Nat → Option RepoConfig
  | [], _ => none
  | rc :: _, 0 => some rc
  | _ :: rest, Nat.succ n => nthRepo rest n

/-- The entry at a (valid) index; the default is never reached on the
indices produced by `ensure_repo_exists`. -/
def entryAt (h : ReleaseHistory) (i : Nat) : RepoConfig :=
  (nthRepo h.repositories i).getD ⟨"", "", none, []⟩

/-- In-place update of `self.history.repositories[i]`. -/
def modifyAt (f : RepoConfig → RepoConfig) : List RepoConfig → Nat → List RepoConfig
  | [], _ => []
  | rc :: rest, 0 => f rc :: rest
  | rc :: rest, Nat.succ n => rc :: modifyAt f rest n

/-- `get_releases` (source lines 122-134): the network fetch is a
collaborator; a `requests` exception is caught and turned into `[]`. -/
def get_releases (fetched : Except Unit (List RawRelease)) : List RawRelease :=
  match fetched with
  | Except.ok l => l
  | Except.error _ => []

/-- The `for release_data in releases_data` loop of
`check_for_new_releases` (source lines 157-172): iterate the fetched list
in order against the snapshot `known_release_ids`; a record whose id is
absent is turned into a `Release`, reported as `(owner, repo, release)`,
and appended to the entry's release list.  Returns the reported tuples and
the appended releases, both in encounter order. -/
def releaseLoop (owner repo : String) (known : List Int) :
    List RawRelease → List (String × String × Release) × List Release
  | [] => ([], [])
  | rd :: rest =>
    if rd.id ∈ known then releaseLoop owner repo known rest
    else
      let rel := mkRelease rd
      let lr := releaseLoop owner repo known rest
      ((owner, repo, rel) :: lr.1, rel :: lr.2)

/-- `self.history.repositories[repo_index].latest_check = datetime.now().isoformat()`
(source line 151). -/
def stampLatest (now : String) (rc : RepoConfig) : RepoConfig :=
  ⟨rc.owner, rc.repo, some now, rc.releases⟩

/-- `self.history.repositories[repo_index].releases.append(release)` for each
appended release (source line 170), batched over the loop. -/
def appendReleases (ap : List Release) (rc : RepoConfig) : RepoConfig :=
  ⟨rc.owner, rc.repo, rc.latest_check, rc.releases ++ ap⟩

/-- Body of `check_for_new_releases` after the early return (source lines
147-177): ensure the entry exists, stamp `latest_check`, snapshot the known
ids once, then run the release loop and append the discovered releases to
the entry. -/
def checkCore (h : ReleaseHistory) (owner repo : String)
    (releases_data : List RawRelease) (now : String) :
    ReleaseHistory × List (String × String × Release) :=
  let er := ensure_repo_exists h owner repo
  let h2 : ReleaseHistory := ⟨modifyAt (stampLatest now) er.1.repositories er.2⟩
  let known := (entryAt h2 er.2).releases.map (fun rel => rel.id)
  let lr := releaseLoop owner repo known releases_data
  (⟨modifyAt (appendReleases lr.2) h2.repositories er.2⟩, lr.1)

/-- `check_for_new_releases` (source lines 136-177).  `if not
releases_data: return []` is the `[]` branch: on a failed or empty fetch
the history is returned untouched (the entry is not created and
`latest_check` is not stamped).  The `_save_history` call on a non-empty
result is modelled at the orchestration layer, where the save log lives. -/
def check_for_new_releases (h : ReleaseHistory) (owner repo : String)
    (fetched : Except Unit (List RawRelease)) (now : String) :
    ReleaseHistory × List (String × String × Release) :=
  match get_releases fetched with
  | [] => (h, [])
  | rd :: rest => checkCore h owner repo (rd :: rest) now

/-- Spec-side helper: the stored release sequence of the `(owner, repo)`
entry (empty when the repository is not yet tracked). -/
def oldReleasesOf (h : ReleaseHistory) (owner repo : String) : List Release :=
  ((findRepo h.repositories owner repo).map (fun rc => rc.releases)).getD []

/-- Spec-side helper: the known-id set used for deduplication
(`known_release_ids`, source line 154). -/
def knownIdsOf (h : ReleaseHistory) (owner repo : String) : List Int :=
  (oldReleasesOf h owner repo).map (fun rel => rel.id)

/-- Spec-side helper: the fetched records that the spec calls "new" — those
whose identifier is absent from the known set. -/
def newOnes (known : List Int) (l : List RawRelease) : List RawRelease :=
  l.filter (fun rd => decide (rd.id ∉ known))

/-- Orchestrator-visible agent state: the in-memory history plus the log of
history snapshots written by `_save_history` (source lines 91-104), in
write order. -/
structure OrchState where
  history : ReleaseHistory
  saveLog : List ReleaseHistory
deriving DecidableEq, Repr

/-- `check_all_repositories` (source lines 179-195) together with the
`_save_history` call that `check_for_new_releases` makes exactly when its
new-release list is non-empty (source lines 174-175): visit the configured
repositories in order, accumulating the new-release tuples. -/
def check_all_s (s : OrchState) (repositories : List (String × String))
    (fetch : String → String → Except Unit (List RawRelease)) (now : String) :
    OrchState × List (String × String × Release) :=
  match repositories with
  | [] => (s, [])
  | (o, r) :: rest =>
    let cr := check_for_new_releases s.history o r (fetch o r) now
    let s1 : OrchState :=
      ⟨cr.1, if cr.2 = [] then s.saveLog else s.saveLog ++ [cr.1]⟩
    let res := check_all_s s1 rest fetch now
    (res.1, cr.2 ++ res.2)

/-- `ReleaseMonitorOrchestrator.initialize` (source lines 356-376): one
full fetch+diff pass over the configured repositories, followed by an
unconditional `_save_history()`.  No summarizer or notifier collaborator
appears: the function cannot notify, mirroring the code, which touches
neither the analysis agent nor the email agent here. -/
def initPhase (s : OrchState) (repositories : List (String × String))
    (fetch : String → String → Except Unit (List RawRelease)) (now : String) :
    OrchState × List (String × String × Release) :=
  let res := check_all_s s repositories fetch now
  (⟨res.1.history, res.1.saveLog ++ [res.1.history]⟩, res.2)

/-- One attempted enrichment+notification for one new release, as driven
by the `for owner, repo, release in new_releases` loop (source lines
403-415).  `delivered` is the boolean result of `send_notification`. -/
structure Attempt where
  owner : String
  repo : String
  release : Release
  content : String
  delivered : Bool
deriving DecidableEq, Repr

/-- The enrich-then-notify pipeline of `start_monitoring` (source lines
403-415).  `summarize` embeds `ContentAnalysisAgent.analyze_release`
(source lines 219-242), which has no exception handler, so its failure is
an `Except.error` that aborts the remaining iterations — the returned
flag records that the loop was cut short.  `notify` embeds
`EmailNotificationAgent.send_notification` (source lines 251-313), whose
body catches its own exceptions and returns a boolean, so it is total. -/
def processNewReleases (summarize : String → String → Release → Except Unit String)
    (notify : String → String → String → Release → String → Bool)
    (recipient : String) :
    List (String × String × Release) → List Attempt × Bool
  | [] => ([], false)
  | (o, r, rel) :: rest =>
    match summarize o r rel with
    | Except.error _ => ([], true)
    | Except.ok content =>
      let delivered := notify recipient o r rel content
      let pr := processNewReleases summarize notify recipient rest
      (⟨o, r, rel, content, delivered⟩ :: pr.1, pr.2)

/-- One iteration of the `while True` polling loop of `start_monitoring`
(source lines 394-420): check all repositories, then run the pipeline over
the discovered releases. -/
def pollCycle (s : OrchState) (repositories : List (String × String))
    (fetch : String → String → Except Unit (List RawRelease)) (now : String)
    (summarize : String → String → Release → Except Unit String)
    (notify : String → String → String → Release → String → Bool)
    (recipient : String) :
    OrchState × List (String × String × Release) × (List Attempt × Bool) :=
  let res := check_all_s s repositories fetch now
  (res.1, res.2, processNewReleases summarize notify recipient res.2)

/-- Iterated fetch+diff cycles, for statements quantified over any number
of poll cycles; each cycle supplies its own fetch results and timestamp. -/
def runCycles (s : OrchState) (repositories : List (String × String)) :
    List ((String → String → Except Unit (List RawRelease)) × String) → OrchState
  | [] => s
  | c :: cs => runCycles (check_all_s s repositories c.1 c.2).1 repositories cs

/-- `_load_history` (source lines 69-89): the file system is abstracted as
the optional file content, and `json.load` plus pydantic validation as the
fallible `parse` collaborator.  A missing file yields `ReleaseHistory()`;
any exception inside the `try` block is caught, logged, and also yields
`ReleaseHistory()`. -/
def load_history (file : Option String)
    (parse : String → Except String ReleaseHistory) : ReleaseHistory :=
  match file with
  | none => ⟨[]⟩
  | some content =>
    match parse content with
    | Except.ok h => h
    | Except.error _ => ⟨[]⟩

/-- Spec-side helper: number of tracked entries carrying a given key; the
TrackingStore invariant demands this is at most one. -/
def countKey (h : ReleaseHistory) (owner repo : String) : Nat :=
  (h.repositories.filter (fun rc => decide (rc.owner = owner ∧ rc.repo = repo))).length

/-- Spec-side helper (Bool so that instantiations are closed terms): every
reported tuple's release id is known in the given history under the
tuple's own key. -/
def recordedKnown (h : ReleaseHistory) (new : List (String × String × Release)) : Bool :=
  new.all (fun t => decide (t.2.2.id ∈ knownIdsOf h t.1 t.2.1))

/-- Spec-side helper: the summarizer succeeds on every listed release. -/
def summarizeOk (summarize : String → String → Release → Except Unit String)
    (l : List (String × String × Release)) : Bool :=
  l.all (fun t =>
    match summarize t.1 t.2.1 t.2.2 with
    | Except.ok _ => true
    | Except.error _ => false)

/-! ### Concrete sample data used by witnesses and counterexamples -/

/-- A fetch collaborator whose every call fails (network error). -/
def fetch_fail : String → String → Except Unit (List RawRelease) :=
  fun _ _ => Except.error ()

/-- A history with one tracked repository whose last check is recorded. -/
def h_c4 : ReleaseHistory := ⟨[⟨"a", "w", some "2025-01-01T00:00:00", []⟩]⟩

/-- A parser that always fails, as on a corrupt state file. -/
def parse_bad : String → Except String ReleaseHistory :=
  fun _ => Except.error "invalid json"

/-- A small valid history. -/
def h_c6 : ReleaseHistory := ⟨[⟨"a", "w", none, []⟩]⟩

/-- A parser that succeeds with `h_c6`. -/
def parse_good : String → Except String ReleaseHistory :=
  fun _ => Except.ok h_c6

def rel1 : Release := ⟨1, "v1", "v1", "2025-01-01T00:00:00", "https://example.com/1", none⟩

def rel2 : Release := ⟨2, "v2", "v2", "2025-02-01T00:00:00", "https://example.com/2", none⟩

/-- The empty store. -/
def h_empty : ReleaseHistory := ⟨[]⟩

/-- A history already knowing release id 5 for `a/w`. -/
def h_c8 : ReleaseHistory := ⟨[⟨"a", "w", none, [⟨5, "v5", "v5", "2025", "u5", none⟩]⟩]⟩

def e_c9 : RepoConfig := ⟨"a", "w", none, [rel1]⟩

/-- A history whose `a/w` entry already stores `rel1` (id 1, tag `v1`). -/
def h_c9 : ReleaseHistory := ⟨[e_c9]⟩

/-- A re-fetched record with the identifier of `rel1` but edited metadata. -/
def rd_c9 : RawRelease :=
  ⟨1, "v1-edited", some "Edited", "2026-01-01T00:00:00", "https://example.com/1b",
    some (some "changed body")⟩

def rdA_c10 : RawRelease := ⟨7, "v7", some "Seven", "2025", "u7", none⟩

/-- A second record carrying the same identifier as `rdA_c10`. -/
def rdB_c10 : RawRelease := ⟨7, "v7-dup", some "SevenDup", "2025", "u7b", none⟩

/-- A summarizer that raises on the release with id 1 and succeeds elsewhere. -/
def summarizeFail1 : String → String → Release → Except Unit String :=
  fun _ _ rel => if rel.id = 1 then Except.error () else Except.ok "summary"

/-- A summarizer that always succeeds. -/
def summarizeAllOk : String → String → Release → Except Unit String :=
  fun _ _ _ => Except.ok "summary"

/-- A notifier whose delivery always succeeds. -/
def notifyTrue : String → String → String → Release → String → Bool :=
  fun _ _ _ _ _ => true

/-- A notifier whose delivery always fails (returns `False` like
`send_notification` on an error result). -/
def notifyFalse : String → String → String → Release → String → Bool :=
  fun _ _ _ _ _ => false


/-! ## List-level lemmas about the tracker's helper operations -/

theorem nthRepo_append_length (l : List RepoConfig) (x : RepoConfig) :
    nthRepo (l ++ [x]) l.length = some x := by
  induction l with
  | nil => rfl
  | cons rc rest ih => simpa [nthRepo] using ih

theorem nthRepo_modifyAt_self (f : RepoConfig → RepoConfig)
    (l : List RepoConfig) (i : Nat) :
    nthRepo (modifyAt f l i) i = (nthRepo l i).map f := by
  induction l generalizing i with
  | nil => cases i <;> simp [modifyAt, nthRepo]
  | cons rc rest ih =>
    cases i with
    | zero => rfl
    | succ n => simpa [modifyAt, nthRepo] using ih n

theorem modifyAt_append_length (f : RepoConfig → RepoConfig)
    (l : List RepoConfig) (x : RepoConfig) :
    modifyAt f (l ++ [x]) l.length = l ++ [f x] := by
  induction l with
  | nil => rfl
  | cons rc rest ih => simp [modifyAt, ih]

theorem findRepoIdx_some (l : List RepoConfig) (o r : String) (i : Nat)
    (hi : findRepoIdx l o r = some i) :
    ∃ rc, nthRepo l i = some rc ∧ rc.owner = o ∧ rc.repo = r ∧
      findRepo l o r = some rc := by
  induction l generalizing i with
  | nil => simp [findRepoIdx] at hi
  | cons rc rest ih =>
    by_cases hm : rc.owner = o ∧ rc.repo = r
    · rw [findRepoIdx, if_pos hm] at hi
      obtain rfl : (0 : Nat) = i := Option.some.inj hi
      exact ⟨rc, rfl, hm.1, hm.2, by rw [findRepo, if_pos hm]⟩
    · rw [findRepoIdx, if_neg hm] at hi
      cases hj : findRepoIdx rest o r with
      | none => rw [hj] at hi; simp at hi
      | some j =>
        rw [hj] at hi
        obtain rfl : j + 1 = i := Option.some.inj hi
        obtain ⟨rc', hn, h1, h2, h3⟩ := ih j hj
        exact ⟨rc', hn, h1, h2, by rw [findRepo, if_neg hm]; exact h3⟩

theorem findRepoIdx_none (l : List RepoConfig) (o r : String)
    (hn : findRepoIdx l o r = none) :
    findRepo l o r = none ∧ ∀ rc ∈ l, ¬(rc.owner = o ∧ rc.repo = r) := by
  induction l with
  | nil => exact ⟨rfl, by simp⟩
  | cons rc rest ih =>
    by_cases hm : rc.owner = o ∧ rc.repo = r
    · rw [findRepoIdx, if_pos hm] at hn; simp at hn
    · rw [findRepoIdx, if_neg hm] at hn
      cases hj : findRepoIdx rest o r with
      | none =>
        obtain ⟨h1, h2⟩ := ih hj
        refine ⟨by rw [findRepo, if_neg hm]; exact h1, ?_⟩
        intro rc' hrc'
        rcases List.mem_cons.mp hrc' with rfl | hmem
        · exact hm
        · exact h2 rc' hmem
      | some j => rw [hj] at hn; simp at hn

theorem findRepoIdx_modifyAt (f : RepoConfig → RepoConfig)
    (hf : ∀ rc, (f rc).owner = rc.owner ∧ (f rc).repo = rc.repo)
    (l : List RepoConfig) (o r : String) (i : Nat) :
    findRepoIdx (modifyAt f l i) o r = findRepoIdx l o r := by
  induction l generalizing i with
  | nil => cases i <;> rfl
  | cons rc rest ih =>
    cases i with
    | zero =>
      show findRepoIdx (f rc :: rest) o r = _
      rw [findRepoIdx, findRepoIdx, (hf rc).1, (hf rc).2]
    | succ n =>
      show findRepoIdx (rc :: modifyAt f rest n) o r = _
      rw [findRepoIdx, findRepoIdx, ih n]

theorem findRepo_modifyAt (f : RepoConfig → RepoConfig)
    (hf : ∀ rc, (f rc).owner = rc.owner ∧ (f rc).repo = rc.repo)
    (l : List RepoConfig) (o r : String) (i : Nat)
    (hi : findRepoIdx l o r = some i) :
    findRepo (modifyAt f l i) o r = (findRepo l o r).map f ∧
    ∀ o' r', ¬(o' = o ∧ r' = r) →
      findRepo (modifyAt f l i) o' r' = findRepo l o' r' := by
  induction l generalizing i with
  | nil => simp [findRepoIdx] at hi
  | cons rc rest ih =>
    by_cases hm : rc.owner = o ∧ rc.repo = r
    · rw [findRepoIdx, if_pos hm] at hi
      obtain rfl : (0 : Nat) = i := Option.some.inj hi
      constructor
      · show findRepo (f rc :: rest) o r = _
        rw [findRepo, if_pos (by rw [(hf rc).1, (hf rc).2]; exact hm),
          findRepo, if_pos hm, Option.map_some']
      · intro o' r' hne
        have hfne : ¬((f rc).owner = o' ∧ (f rc).repo = r') := by
          rw [(hf rc).1, (hf rc).2, hm.1, hm.2]
          intro hc
          exact hne ⟨hc.1.symm, hc.2.symm⟩
        have hrne : ¬(rc.owner = o' ∧ rc.repo = r') := by
          rw [hm.1, hm.2]
          intro hc
          exact hne ⟨hc.1.symm, hc.2.symm⟩
        show findRepo (f rc :: rest) o' r' = _
        rw [findRepo, if_neg hfne, findRepo, if_neg hrne]
    · rw [findRepoIdx, if_neg hm] at hi
      cases hj : findRepoIdx rest o r with
      | none => rw [hj] at hi; simp at hi
      | some j =>
        rw [hj] at hi
        obtain rfl : j + 1 = i := Option.some.inj hi
        obtain ⟨ih1, ih2⟩ := ih j hj
        constructor
        · show findRepo (rc :: modifyAt f rest j) o r = _
          rw [findRepo, if_neg hm, findRepo, if_neg hm]
          exact ih1
        · intro o' r' hne
          show findRepo (rc :: modifyAt f rest j) o' r' = _
          by_cases hm' : rc.owner = o' ∧ rc.repo = r'
          · rw [findRepo, if_pos hm', findRepo, if_pos hm']
          · rw [findRepo, if_neg hm', findRepo, if_neg hm']
            exact ih2 o' r' hne

theorem findRepo_append_of_none (l : List RepoConfig) (x : RepoConfig)
    (o r : String) (hn : findRepo l o r = none) :
    findRepo (l ++ [x]) o r =
      if x.owner = o ∧ x.repo = r then some x else none := by
  induction l with
  | nil => rfl
  | cons rc rest ih =>
    by_cases hm : rc.owner = o ∧ rc.repo = r
    · rw [findRepo, if_pos hm] at hn; simp at hn
    · rw [findRepo, if_neg hm] at hn
      show findRepo (rc :: (rest ++ [x])) o r = _
      rw [findRepo, if_neg hm]
      exact ih hn

theorem findRepo_append_of_ne (l : List RepoConfig) (x : RepoConfig)
    (o' r' : String) (hx : ¬(x.owner = o' ∧ x.repo = r')) :
    findRepo (l ++ [x]) o' r' = findRepo l o' r' := by
  induction l with
  | nil => show findRepo [x] o' r' = none; rw [findRepo, if_neg hx]; rfl
  | cons rc rest ih =>
    by_cases hm : rc.owner = o' ∧ rc.repo = r'
    · show findRepo (rc :: (rest ++ [x])) o' r' = _
      rw [findRepo, if_pos hm, findRepo, if_pos hm]
    · show findRepo (rc :: (rest ++ [x])) o' r' = _
      rw [findRepo, if_neg hm, findRepo, if_neg hm]
      exact ih

theorem releaseLoop_eq (owner repo : String) (known : List Int)
    (l : List RawRelease) :
    releaseLoop owner repo known l =
      ((newOnes known l).map (fun rd => (owner, repo, mkRelease rd)),
        (newOnes known l).map mkRelease) := by
  induction l with
  | nil => rfl
  | cons rd rest ih =>
    by_cases hm : rd.id ∈ known
    · simp [releaseLoop, newOnes, hm, List.filter_cons] at ih ⊢
      exact ih
    · simp [releaseLoop, newOnes, hm, List.filter_cons] at ih ⊢
      rw [ih]
      exact ⟨rfl, rfl⟩

/-! ## The change-detection master lemma -/

theorem stampLatest_owner (now : String) (rc : RepoConfig) :
    (stampLatest now rc).owner = rc.owner := rfl

theorem stampLatest_repo (now : String) (rc : RepoConfig) :
    (stampLatest now rc).repo = rc.repo := rfl

theorem stampLatest_releases (now : String) (rc : RepoConfig) :
    (stampLatest now rc).releases = rc.releases := rfl

theorem checkCore_spec (h : ReleaseHistory) (o r : String)
    (l : List RawRelease) (now : String) :
    (checkCore h o r l now).2
        = (newOnes (knownIdsOf h o r) l).map (fun rd => (o, r, mkRelease rd))
  ∧ findRepo (checkCore h o r l now).1.repositories o r
        = some ⟨o, r, some now,
            oldReleasesOf h o r ++ (newOnes (knownIdsOf h o r) l).map mkRelease⟩
  ∧ ∀ o' r', ¬(o' = o ∧ r' = r) →
      findRepo (checkCore h o r l now).1.repositories o' r'
        = findRepo h.repositories o' r' := by
  cases hE : findRepoIdx h.repositories o r with
  | some i =>
    obtain ⟨rc, hnth, hro, hrr, hfr⟩ := findRepoIdx_some _ _ _ _ hE
    have hknown : knownIdsOf h o r = rc.releases.map (fun rel => rel.id) := by
      simp [knownIdsOf, oldReleasesOf, hfr]
    have hold : oldReleasesOf h o r = rc.releases := by
      simp [oldReleasesOf, hfr]
    have hf1 : ∀ rc : RepoConfig,
        (stampLatest now rc).owner = rc.owner ∧ (stampLatest now rc).repo = rc.repo :=
      fun rc => ⟨rfl, rfl⟩
    have hIdx1 : findRepoIdx (modifyAt (stampLatest now) h.repositories i) o r
        = some i := by
      rw [findRepoIdx_modifyAt _ hf1]
      exact hE
    simp only [checkCore, ensure_repo_exists, hE, entryAt,
      nthRepo_modifyAt_self, hnth, Option.map_some', Option.getD_some,
      stampLatest_releases, releaseLoop_eq, hknown, hold]
    refine ⟨trivial, ?_, ?_⟩
    · have hm1 := (findRepo_modifyAt (stampLatest now) hf1 h.repositories o r i hE).1
      have hm2 := (findRepo_modifyAt
        (appendReleases ((newOnes (rc.releases.map (fun rel => rel.id)) l).map mkRelease))
        (fun rc => ⟨rfl, rfl⟩) _ o r i hIdx1).1
      rw [hm2, hm1, hfr]
      simp [stampLatest, appendReleases, hro, hrr]
    · intro o' r' hne
      have hm1 := (findRepo_modifyAt (stampLatest now) hf1 h.repositories o r i hE).2 o' r' hne
      have hm2 := (findRepo_modifyAt
        (appendReleases ((newOnes (rc.releases.map (fun rel => rel.id)) l).map mkRelease))
        (fun rc => ⟨rfl, rfl⟩) _ o r i hIdx1).2 o' r' hne
      rw [hm2, hm1]
  | none =>
    obtain ⟨hfr, -⟩ := findRepoIdx_none _ _ _ hE
    have hknown : knownIdsOf h o r = [] := by
      simp [knownIdsOf, oldReleasesOf, hfr]
    have hold : oldReleasesOf h o r = [] := by
      simp [oldReleasesOf, hfr]
    simp only [checkCore, ensure_repo_exists, hE, entryAt,
      modifyAt_append_length, nthRepo_append_length, Option.getD_some,
      stampLatest_releases, List.map_nil, releaseLoop_eq, hknown, hold]
    refine ⟨trivial, ?_, ?_⟩
    · rw [findRepo_append_of_none _ _ _ _ hfr]
      simp [stampLatest, appendReleases]
    · intro o' r' hne
      rw [findRepo_append_of_ne]
      intro hc
      refine hne ?_
      revert hc
      simp [stampLatest, appendReleases]
      intro h1 h2
      exact ⟨h1.symm, h2.symm⟩

theorem check_error (h : ReleaseHistory) (o r : String) (now : String) :
    check_for_new_releases h o r (Except.error ()) now = (h, []) := rfl

theorem check_ok_nil (h : ReleaseHistory) (o r : String) (now : String) :
    check_for_new_releases h o r (Except.ok []) now = (h, []) := rfl

theorem check_ok_ne_nil (h : ReleaseHistory) (o r : String)
    (l : List RawRelease) (now : String) (hl : l ≠ []) :
    check_for_new_releases h o r (Except.ok l) now = checkCore h o r l now := by
  cases l with
  | nil => exact absurd rfl hl
  | cons rd rest => rfl

/-! ## Consequences for a single repository check -/

theorem check_snd_eq (h : ReleaseHistory) (o r : String)
    (l : List RawRelease) (now : String) :
    (check_for_new_releases h o r (Except.ok l) now).2
      = (newOnes (knownIdsOf h o r) l).map (fun rd => (o, r, mkRelease rd)) := by
  cases l with
  | nil => rfl
  | cons rd rest => exact (checkCore_spec h o r (rd :: rest) now).1

theorem check_mono (h : ReleaseHistory) (o r : String)
    (f : Except Unit (List RawRelease)) (now : String) (o' r' : String) (x : Int)
    (hx : x ∈ knownIdsOf h o' r') :
    x ∈ knownIdsOf (check_for_new_releases h o r f now).1 o' r' := by
  cases f with
  | error e => exact hx
  | ok l =>
    cases l with
    | nil => exact hx
    | cons rd0 rest =>
      rw [check_ok_ne_nil _ _ _ _ _ (by simp)]
      by_cases hk : o' = o ∧ r' = r
      · obtain ⟨rfl, rfl⟩ := hk
        have h2 := (checkCore_spec h o' r' (rd0 :: rest) now).2.1
        unfold knownIdsOf oldReleasesOf
        rw [h2]
        simp only [Option.map_some', Option.getD_some, List.map_append]
        exact List.mem_append_left _ hx
      · have h3 := (checkCore_spec h o r (rd0 :: rest) now).2.2 o' r' hk
        unfold knownIdsOf oldReleasesOf
        rw [h3]
        exact hx

theorem check_all_ids_known (h : ReleaseHistory) (o r : String)
    (f : Except Unit (List RawRelease)) (now : String) (rd : RawRelease)
    (hrd : rd ∈ get_releases f) :
    rd.id ∈ knownIdsOf (check_for_new_releases h o r f now).1 o r := by
  cases f with
  | error e => simp [get_releases] at hrd
  | ok l =>
    cases l with
    | nil => simp [get_releases] at hrd
    | cons rd0 rest =>
      rw [check_ok_ne_nil _ _ _ _ _ (by simp)]
      have h2 := (checkCore_spec h o r (rd0 :: rest) now).2.1
      unfold knownIdsOf oldReleasesOf
      rw [h2]
      simp only [Option.map_some', Option.getD_some, List.map_append]
      by_cases hk : rd.id ∈ knownIdsOf h o r
      · exact List.mem_append_left _ hk
      · refine List.mem_append_right _ ?_
        have hmem : rd ∈ newOnes (knownIdsOf h o r) (rd0 :: rest) := by
          simp only [get_releases] at hrd
          simp [newOnes, List.mem_filter, hrd, hk]
        rw [List.map_map]
        exact List.mem_map.mpr ⟨rd, hmem, rfl⟩

theorem check_no_new (h : ReleaseHistory) (o r : String)
    (f : Except Unit (List RawRelease)) (now : String)
    (hall : ∀ rd ∈ get_releases f, rd.id ∈ knownIdsOf h o r) :
    (check_for_new_releases h o r f now).2 = []
  ∧ ∀ o' r', knownIdsOf (check_for_new_releases h o r f now).1 o' r'
      = knownIdsOf h o' r' := by
  cases f with
  | error e => exact ⟨rfl, fun o' r' => rfl⟩
  | ok l =>
    cases l with
    | nil => exact ⟨rfl, fun o' r' => rfl⟩
    | cons rd0 rest =>
      have hnew : newOnes (knownIdsOf h o r) (rd0 :: rest) = [] := by
        rw [newOnes, List.filter_eq_nil_iff]
        intro rd hrd
        have := hall rd (by simpa [get_releases] using hrd)
        simp [this]
      rw [check_ok_ne_nil _ _ _ _ _ (by simp)]
      constructor
      · rw [(checkCore_spec h o r (rd0 :: rest) now).1, hnew]
        rfl
      · intro o' r'
        by_cases hk : o' = o ∧ r' = r
        · obtain ⟨rfl, rfl⟩ := hk
          have h2 := (checkCore_spec h o' r' (rd0 :: rest) now).2.1
          unfold knownIdsOf oldReleasesOf
          rw [h2, hnew]
          simp [oldReleasesOf]
        · have h3 := (checkCore_spec h o r (rd0 :: rest) now).2.2 o' r' hk
          unfold knownIdsOf oldReleasesOf
          rw [h3]

theorem check_output_known (h : ReleaseHistory) (o r : String)
    (f : Except Unit (List RawRelease)) (now : String)
    (t : String × String × Release)
    (ht : t ∈ (check_for_new_releases h o r f now).2) :
    t.1 = o ∧ t.2.1 = r ∧
      t.2.2.id ∈ knownIdsOf (check_for_new_releases h o r f now).1 o r := by
  cases f with
  | error e => simp [check_for_new_releases, get_releases] at ht
  | ok l =>
    cases l with
    | nil => simp [check_for_new_releases, get_releases] at ht
    | cons rd0 rest =>
      rw [check_ok_ne_nil _ _ _ _ _ (by simp)] at ht ⊢
      rw [(checkCore_spec h o r (rd0 :: rest) now).1] at ht
      obtain ⟨rd, hrdmem, rfl⟩ := List.mem_map.mp ht
      refine ⟨rfl, rfl, ?_⟩
      have h2 := (checkCore_spec h o r (rd0 :: rest) now).2.1
      unfold knownIdsOf oldReleasesOf
      rw [h2]
      simp only [Option.map_some', Option.getD_some, List.map_append]
      refine List.mem_append_right _ ?_
      rw [List.map_map]
      exact List.mem_map.mpr ⟨rd, hrdmem, rfl⟩

/-! ## Consequences for a whole poll pass -/

theorem check_all_s_history_mono (repos : List (String × String)) (s : OrchState)
    (fetch : String → String → Except Unit (List RawRelease)) (now : String)
    (o' r' : String) (x : Int) (hx : x ∈ knownIdsOf s.history o' r') :
    x ∈ knownIdsOf (check_all_s s repos fetch now).1.history o' r' := by
  induction repos generalizing s with
  | nil => exact hx
  | cons p rest ih =>
    obtain ⟨o0, r0⟩ := p
    simp only [check_all_s]
    exact ih _ (check_mono s.history o0 r0 (fetch o0 r0) now o' r' x hx)

theorem check_all_s_all_known (repos : List (String × String)) (s : OrchState)
    (fetch : String → String → Except Unit (List RawRelease)) (now : String)
    (o r : String) (hp : (o, r) ∈ repos) (rd : RawRelease)
    (hrd : rd ∈ get_releases (fetch o r)) :
    rd.id ∈ knownIdsOf (check_all_s s repos fetch now).1.history o r := by
  induction repos generalizing s with
  | nil => simp at hp
  | cons p rest ih =>
    obtain ⟨o0, r0⟩ := p
    rcases List.mem_cons.mp hp with heq | hmem
    · cases heq
      simp only [check_all_s]
      exact check_all_s_history_mono rest _ fetch now o r rd.id
        (check_all_ids_known s.history o r (fetch o r) now rd hrd)
    · simp only [check_all_s]
      exact ih _ hmem

theorem check_all_s_no_new (repos : List (String × String)) (s : OrchState)
    (fetch : String → String → Except Unit (List RawRelease)) (now : String)
    (hall : ∀ p ∈ repos, ∀ rd ∈ get_releases (fetch p.1 p.2),
      rd.id ∈ knownIdsOf s.history p.1 p.2) :
    (check_all_s s repos fetch now).2 = []
  ∧ ∀ o' r', knownIdsOf (check_all_s s repos fetch now).1.history o' r'
      = knownIdsOf s.history o' r' := by
  induction repos generalizing s with
  | nil => exact ⟨rfl, fun o' r' => rfl⟩
  | cons p rest ih =>
    obtain ⟨o0, r0⟩ := p
    have hhead := check_no_new s.history o0 r0 (fetch o0 r0) now
      (fun rd hrd => hall (o0, r0) (List.mem_cons_self _ _) rd hrd)
    have htail := ih ⟨(check_for_new_releases s.history o0 r0 (fetch o0 r0) now).1,
        s.saveLog⟩
      (fun q hq rd hrd => by
        show rd.id ∈ knownIdsOf (check_for_new_releases s.history o0 r0
          (fetch o0 r0) now).1 q.1 q.2
        rw [hhead.2 q.1 q.2]
        exact hall q (List.mem_cons_of_mem _ hq) rd hrd)
    simp only [check_all_s, hhead.1, eq_self_iff_true, ite_true, List.nil_append]
    exact ⟨htail.1, fun o' r' => by rw [htail.2 o' r', hhead.2 o' r']⟩

theorem check_all_s_output_known (repos : List (String × String)) (s : OrchState)
    (fetch : String → String → Except Unit (List RawRelease)) (now : String)
    (t : String × String × Release) (ht : t ∈ (check_all_s s repos fetch now).2) :
    t.2.2.id ∈ knownIdsOf (check_all_s s repos fetch now).1.history t.1 t.2.1 := by
  induction repos generalizing s with
  | nil => simp [check_all_s] at ht
  | cons p rest ih =>
    obtain ⟨o0, r0⟩ := p
    simp only [check_all_s] at ht ⊢
    rcases List.mem_append.mp ht with hhd | htl
    · obtain ⟨h1, h2, h3⟩ :=
        check_output_known s.history o0 r0 (fetch o0 r0) now t hhd
      rw [h1, h2]
      exact check_all_s_history_mono rest _ fetch now o0 r0 t.2.2.id h3
    · exact ih _ htl

/-! ## Lemmas about `ensure_repo_exists` and the per-key entry count -/

theorem nthRepo_mem (l : List RepoConfig) (i : Nat) (rc : RepoConfig)
    (h : nthRepo l i = some rc) : rc ∈ l := by
  induction l generalizing i with
  | nil => simp [nthRepo] at h
  | cons x rest ih =>
    cases i with
    | zero =>
      cases Option.some.inj h
      exact List.mem_cons_self _ _
    | succ n => exact List.mem_cons_of_mem _ (ih n h)

theorem findRepoIdx_append_self (l : List RepoConfig) (o r : String)
    (x : RepoConfig) (hx : x.owner = o ∧ x.repo = r)
    (hn : findRepoIdx l o r = none) :
    findRepoIdx (l ++ [x]) o r = some l.length := by
  induction l with
  | nil =>
    show findRepoIdx [x] o r = some 0
    rw [findRepoIdx, if_pos hx]
  | cons rc rest ih =>
    by_cases hm : rc.owner = o ∧ rc.repo = r
    · rw [findRepoIdx, if_pos hm] at hn; simp at hn
    · rw [findRepoIdx, if_neg hm] at hn
      have hr : findRepoIdx rest o r = none := by
        cases hj : findRepoIdx rest o r with
        | none => rfl
        | some j => rw [hj] at hn; simp at hn
      show findRepoIdx (rc :: (rest ++ [x])) o r = _
      rw [findRepoIdx, if_neg hm, ih hr]
      rfl

theorem countKey_pos_of_findRepoIdx_some (h : ReleaseHistory) (o r : String)
    (i : Nat) (hi : findRepoIdx h.repositories o r = some i) :
    1 ≤ countKey h o r := by
  obtain ⟨rc, hnth, hro, hrr, -⟩ := findRepoIdx_some _ _ _ _ hi
  have hm : rc ∈ h.repositories := nthRepo_mem _ _ _ hnth
  have hmf : rc ∈ h.repositories.filter
      (fun rc => decide (rc.owner = o ∧ rc.repo = r)) :=
    List.mem_filter.mpr ⟨hm, by simp [hro, hrr]⟩
  exact List.length_pos.mpr (List.ne_nil_of_mem hmf)

theorem countKey_zero_of_findRepoIdx_none (h : ReleaseHistory) (o r : String)
    (hn : findRepoIdx h.repositories o r = none) : countKey h o r = 0 := by
  obtain ⟨-, hall⟩ := findRepoIdx_none _ _ _ hn
  rw [countKey, List.length_eq_zero, List.filter_eq_nil_iff]
  intro rc hrc
  simp [hall rc hrc]

theorem countKey_append (h : ReleaseHistory) (x : RepoConfig) (o r : String) :
    countKey ⟨h.repositories ++ [x]⟩ o r
      = countKey h o r + (if x.owner = o ∧ x.repo = r then 1 else 0) := by
  rw [countKey, countKey]
  by_cases hm : x.owner = o ∧ x.repo = r <;>
    simp [List.filter_append, hm]

/-! ## Claim theorems -/

/-- C1: for every fetched release list and prior state,
`check_for_new_releases` returns exactly the fetched releases whose
identifier is absent from the known-id set, as `(owner, repo, Release)`
tuples, in the order they appear in the fetched list. -/
theorem check_for_new_releases_filters_by_known_ids (h : ReleaseHistory)
    (o r : String) (l : List RawRelease) (now : String) :
    (check_for_new_releases h o r (Except.ok l) now).2
      = (l.filter (fun rd => decide (rd.id ∉ knownIdsOf h o r))).map
          (fun rd => (o, r, mkRelease rd)) :=
  check_snd_eq h o r l now

/-- C3: the change detector is idempotent with respect to deduplication —
re-running `check_for_new_releases` on the state produced by a first run
with the identical fetched payload reports no new releases, because the
first run already recorded every fetched identifier as known. -/
theorem check_for_new_releases_idempotent (h : ReleaseHistory) (o r : String)
    (f : Except Unit (List RawRelease)) (now now' : String) :
    (check_for_new_releases
        (check_for_new_releases h o r f now).1 o r f now').2 = [] :=
  (check_no_new (check_for_new_releases h o r f now).1 o r f now'
    (fun rd hrd => check_all_ids_known h o r f now rd hrd)).1

/-- C4 counterexample: on an empty fetch result the code returns before
touching the entry, so the last-check timestamp is NOT updated, refuting
the claim that it still is. -/
theorem empty_fetch_skips_latest_check_update :
    (check_for_new_releases h_c4 "a" "w" (Except.ok [])
        "2025-06-01T00:00:00").1 = h_c4
  ∧ ((check_for_new_releases h_c4 "a" "w" (Except.ok [])
        "2025-06-01T00:00:00").1.repositories.map (fun rc => rc.latest_check))
      = [some "2025-01-01T00:00:00"]
  ∧ some "2025-01-01T00:00:00" ≠ some "2025-06-01T00:00:00" :=
  ⟨rfl, rfl, by simp⟩

/-- C4 amended: when the fetch fails or returns an empty result,
`check_for_new_releases` returns an empty new-release list and leaves the
history entirely unchanged — the known set is untouched but, contrary to
the original claim, the last-check timestamp is not updated either (the
entry is not even created); the poll pass over the remaining configured
repositories proceeds exactly as if the failing repository were absent. -/
theorem fetch_failure_leaves_state_unchanged (s : OrchState)
    (h : ReleaseHistory) (o r now now' : String)
    (rest : List (String × String))
    (fetch : String → String → Except Unit (List RawRelease))
    (hf : fetch o r = Except.error ()) :
    check_for_new_releases h o r (Except.error ()) now = (h, [])
  ∧ check_for_new_releases h o r (Except.ok []) now = (h, [])
  ∧ check_all_s s ((o, r) :: rest) fetch now' = check_all_s s rest fetch now' := by
  refine ⟨rfl, rfl, ?_⟩
  simp only [check_all_s, hf, check_for_new_releases, get_releases,
    eq_self_iff_true, ite_true, List.nil_append]

/-- C4 witness: the amended statement at a concrete failing fetch. -/
theorem fetch_failure_leaves_state_unchanged_witness :
    check_for_new_releases h_c4 "a" "w" (Except.error ()) "t" = (h_c4, [])
  ∧ check_for_new_releases h_c4 "a" "w" (Except.ok []) "t" = (h_c4, [])
  ∧ check_all_s ⟨h_c4, []⟩ [("a", "w"), ("b", "x")] fetch_fail "t"
      = check_all_s ⟨h_c4, []⟩ [("b", "x")] fetch_fail "t" :=
  fetch_failure_leaves_state_unchanged ⟨h_c4, []⟩ h_c4 "a" "w" "t" "t"
    [("b", "x")] fetch_fail rfl

/-- C6: loading tracking state never raises — a missing file and a parse
failure both yield the empty store, and a successful parse yields the
parsed store. -/
theorem load_history_never_fails (parse : String → Except String ReleaseHistory)
    (content e : String) :
    load_history none parse = ⟨[]⟩
  ∧ (parse content = Except.error e →
      load_history (some content) parse = ⟨[]⟩)
  ∧ ∀ h : ReleaseHistory, parse content = Except.ok h →
      load_history (some content) parse = h := by
  refine ⟨rfl, ?_, ?_⟩
  · intro hp
    simp [load_history, hp]
  · intro h hp
    simp [load_history, hp]

/-- C6 witness: a corrupt file and a valid file, concretely. -/
theorem load_history_never_fails_witness :
    load_history none parse_bad = ⟨[]⟩
  ∧ load_history (some "garbage") parse_bad = ⟨[]⟩
  ∧ load_history (some "valid") parse_good = h_c6 :=
  ⟨(load_history_never_fails parse_bad "garbage" "invalid json").1,
    (load_history_never_fails parse_bad "garbage" "invalid json").2.1 rfl,
    (load_history_never_fails parse_good "valid" "").2.2 h_c6 rfl⟩

/-- C7: `_ensure_repo_exists` is idempotent — an existing key is returned
as-is, a missing key is appended exactly once at the end, re-running it
changes nothing, and the per-key entry count after the call is the old
count when the key was present and exactly one when it was absent, so at
most one entry per key is preserved. -/
theorem ensure_repo_exists_idempotent (h : ReleaseHistory) (o r : String) :
    ensure_repo_exists (ensure_repo_exists h o r).1 o r = ensure_repo_exists h o r
  ∧ (∀ o' r', countKey (ensure_repo_exists h o r).1 o' r'
      = max (countKey h o' r') (if o' = o ∧ r' = r then 1 else 0))
  ∧ (∀ i : Nat, findRepoIdx h.repositories o r = some i →
      ensure_repo_exists h o r = (h, i))
  ∧ (findRepoIdx h.repositories o r = none →
      (ensure_repo_exists h o r).1.repositories
          = h.repositories ++ [⟨o, r, none, []⟩]
      ∧ (ensure_repo_exists h o r).2 = h.repositories.length) := by
  cases hE : findRepoIdx h.repositories o r with
  | some i =>
    have he : ensure_repo_exists h o r = (h, i) := by
      rw [ensure_repo_exists, hE]
    refine ⟨?_, ?_, ?_, ?_⟩
    · rw [he]
      exact he
    · intro o' r'
      rw [he]
      by_cases hk : o' = o ∧ r' = r
      · rw [if_pos hk]
        obtain ⟨rfl, rfl⟩ := hk
        exact (Nat.max_eq_left
          (countKey_pos_of_findRepoIdx_some h o' r' i hE)).symm
      · rw [if_neg hk]
        exact (Nat.max_zero _).symm
    · intro i' hi'
      cases Option.some.inj hi'
      exact he
    · intro hn
      simp at hn
  | none =>
    have he : ensure_repo_exists h o r
        = (⟨h.repositories ++ [⟨o, r, none, []⟩]⟩, h.repositories.length) := by
      rw [ensure_repo_exists, hE]
    have hidx := findRepoIdx_append_self h.repositories o r
      ⟨o, r, none, []⟩ ⟨rfl, rfl⟩ hE
    refine ⟨?_, ?_, ?_, ?_⟩
    · rw [he]
      show ensure_repo_exists ⟨h.repositories ++ [⟨o, r, none, []⟩]⟩ o r = _
      rw [ensure_repo_exists]
      simp only [hidx]
    · intro o' r'
      rw [he]
      show countKey ⟨h.repositories ++ [⟨o, r, none, []⟩]⟩ o' r' = _
      rw [countKey_append]
      by_cases hk : o' = o ∧ r' = r
      · obtain ⟨rfl, rfl⟩ := hk
        rw [countKey_zero_of_findRepoIdx_none h o' r' hE]
        simp
      · have hxne : ¬((⟨o, r, none, []⟩ : RepoConfig).owner = o'
            ∧ (⟨o, r, none, []⟩ : RepoConfig).repo = r') := by
          intro hc
          exact hk ⟨hc.1.symm, hc.2.symm⟩
        rw [if_neg hxne, if_neg hk, Nat.add_zero]
        exact (Nat.max_zero _).symm
    · intro i' hi'
      simp at hi'
    · intro _
      rw [he]
      exact ⟨rfl, rfl⟩

/-- C7 witness: ensuring a key on the empty store appends one entry;
re-ensuring is a no-op and the key is tracked exactly once. -/
theorem ensure_repo_exists_idempotent_witness :
    ensure_repo_exists (ensure_repo_exists h_empty "a" "w").1 "a" "w"
        = ensure_repo_exists h_empty "a" "w"
  ∧ countKey (ensure_repo_exists h_empty "a" "w").1 "a" "w" = 1
  ∧ (ensure_repo_exists h_empty "a" "w").1.repositories
      = [⟨"a", "w", none, []⟩]
  ∧ (ensure_repo_exists h_empty "a" "w").2 = 0 := by
  refine ⟨(ensure_repo_exists_idempotent h_empty "a" "w").1, ?_, ?_, ?_⟩
  · rw [(ensure_repo_exists_idempotent h_empty "a" "w").2.1 "a" "w"]
    decide
  · exact ((ensure_repo_exists_idempotent h_empty "a" "w").2.2.2 rfl).1
  · exact ((ensure_repo_exists_idempotent h_empty "a" "w").2.2.2 rfl).2

/-- C8: known-id sets grow monotonically — across any number of poll
cycles over any configured repositories, no identifier ever leaves the
stored release sequence of any tracked repository. -/
theorem known_ids_monotone (s : OrchState) (repos : List (String × String))
    (cycles : List ((String → String → Except Unit (List RawRelease)) × String))
    (o r : String) (x : Int) (hx : x ∈ knownIdsOf s.history o r) :
    x ∈ knownIdsOf (runCycles s repos cycles).history o r := by
  induction cycles generalizing s with
  | nil => exact hx
  | cons c cs ih =>
    exact ih _ (check_all_s_history_mono repos s c.1 c.2 o r x hx)

/-- C8 witness: id 5, known before a cycle whose fetch fails, is still
known after it. -/
theorem known_ids_monotone_witness :
    (5 : Int) ∈ knownIdsOf h_c8 "a" "w"
  ∧ (5 : Int) ∈ knownIdsOf
      (runCycles ⟨h_c8, []⟩ [("a", "w")] [(fetch_fail, "t")]).history "a" "w" :=
  ⟨by decide,
    known_ids_monotone ⟨h_c8, []⟩ [("a", "w")] [(fetch_fail, "t")] "a" "w" 5
      (by decide)⟩

/-- C9: deduplication is purely by identifier — a fetched record whose id
is already known is never reported as new, even with changed metadata, and
the stored releases carrying that id are left exactly as they were. -/
theorem dedup_purely_by_identifier (h : ReleaseHistory) (o r : String)
    (l : List RawRelease) (now : String) (rd : RawRelease) (e : RepoConfig)
    (he : findRepo h.repositories o r = some e)
    (hmem : rd ∈ l) (hknown : rd.id ∈ knownIdsOf h o r) :
    ((check_for_new_releases h o r (Except.ok l) now).2.all
        (fun t => t.2.2.id != rd.id)) = true
  ∧ ((findRepo (check_for_new_releases h o r (Except.ok l) now).1.repositories
        o r).getD ⟨"", "", none, []⟩).releases.filter (fun q => q.id == rd.id)
      = e.releases.filter (fun q => q.id == rd.id) := by
  cases l with
  | nil => cases hmem
  | cons rd0 rest =>
    rw [check_ok_ne_nil _ _ _ _ _ (by simp)]
    have hc := checkCore_spec h o r (rd0 :: rest) now
    constructor
    · rw [hc.1, List.all_eq_true]
      intro t ht
      obtain ⟨rd', hrd', rfl⟩ := List.mem_map.mp ht
      have hni : rd'.id ∉ knownIdsOf h o r := by
        simpa [newOnes] using (List.mem_filter.mp hrd').2
      simp only [bne_iff_ne, ne_eq]
      intro heq
      apply hni
      have h2 : rd'.id = rd.id := heq
      rw [h2]
      exact hknown
    · rw [hc.2.1]
      simp only [Option.getD_some]
      have hold : oldReleasesOf h o r = e.releases := by
        simp [oldReleasesOf, he]
      rw [hold, List.filter_append]
      have hnil : ((newOnes (knownIdsOf h o r) (rd0 :: rest)).map
          mkRelease).filter (fun q => q.id == rd.id) = [] := by
        rw [List.filter_eq_nil_iff]
        intro q hq
        obtain ⟨rd', hrd', rfl⟩ := List.mem_map.mp hq
        have hni : rd'.id ∉ knownIdsOf h o r := by
          simpa [newOnes] using (List.mem_filter.mp hrd').2
        simp only [beq_iff_eq]
        intro heq
        apply hni
        have h2 : rd'.id = rd.id := heq
        rw [h2]
        exact hknown
      rw [hnil, List.append_nil]

/-- C9 witness: re-fetching id 1 with edited tag, name, URL and body for a
repository already storing `rel1` reports nothing and keeps `rel1`. -/
theorem dedup_purely_by_identifier_witness :
    ((check_for_new_releases h_c9 "a" "w" (Except.ok [rd_c9]) "t").2.all
        (fun t => t.2.2.id != rd_c9.id)) = true
  ∧ ((findRepo (check_for_new_releases h_c9 "a" "w" (Except.ok [rd_c9])
        "t").1.repositories "a" "w").getD ⟨"", "", none, []⟩).releases.filter
          (fun q => q.id == rd_c9.id)
      = e_c9.releases.filter (fun q => q.id == rd_c9.id) :=
  dedup_purely_by_identifier h_c9 "a" "w" [rd_c9] "t" rd_c9 e_c9
    (by decide) (List.mem_singleton.mpr rfl) (by decide)

theorem count_map_id_newOnes (x : Int) (known : List Int)
    (l : List RawRelease) (hx : x ∉ known) :
    ((newOnes known l).map (fun rd => rd.id)).count x
      = (l.map (fun rd => rd.id)).count x := by
  induction l with
  | nil => rfl
  | cons rd rest ih =>
    simp only [newOnes, decide_not] at ih
    by_cases hm : rd.id ∈ known
    · have hne : x ≠ rd.id := fun hh => hx (by rw [hh]; exact hm)
      simp [newOnes, List.filter_cons, hm, List.count_cons, ih, hne]
    · simp [newOnes, List.filter_cons, hm, List.count_cons, ih]

/-- C10: an identifier absent from the known snapshot is reported once per
occurrence in the fetched list and appended once per occurrence to the
stored sequence — the snapshot is taken before the loop and not extended
during it, so in-list duplicates are all treated as new. -/
theorem duplicate_ids_reported_each_time (h : ReleaseHistory) (o r : String)
    (l : List RawRelease) (now : String) (x : Int)
    (hx : x ∉ knownIdsOf h o r) :
    ((check_for_new_releases h o r (Except.ok l) now).2.map
        (fun t => t.2.2.id)).count x
      = (l.map (fun rd => rd.id)).count x
  ∧ (((findRepo (check_for_new_releases h o r (Except.ok l) now).1.repositories
        o r).getD ⟨"", "", none, []⟩).releases.map (fun q => q.id)).count x
      = (l.map (fun rd => rd.id)).count x := by
  cases l with
  | nil =>
    constructor
    · rfl
    · rw [check_ok_nil h o r now]
      show (((findRepo h.repositories o r).getD ⟨"", "", none, []⟩).releases.map
        (fun q => q.id)).count x = 0
      cases hfr : findRepo h.repositories o r with
      | none => rfl
      | some e =>
        simp only [Option.getD_some]
        refine List.count_eq_zero.mpr ?_
        intro hmem
        apply hx
        show x ∈ (oldReleasesOf h o r).map (fun rel => rel.id)
        rw [oldReleasesOf, hfr]
        exact hmem
  | cons rd0 rest =>
    rw [check_ok_ne_nil _ _ _ _ _ (by simp)]
    have hc := checkCore_spec h o r (rd0 :: rest) now
    constructor
    · rw [hc.1, List.map_map]
      have hcomp : (newOnes (knownIdsOf h o r) (rd0 :: rest)).map
          ((fun t : String × String × Release => t.2.2.id) ∘
            (fun rd => (o, r, mkRelease rd)))
          = (newOnes (knownIdsOf h o r) (rd0 :: rest)).map (fun rd => rd.id) := rfl
      rw [hcomp]
      exact count_map_id_newOnes x _ _ hx
    · rw [hc.2.1]
      simp only [Option.getD_some, List.map_append, List.count_append]
      have h1 : ((oldReleasesOf h o r).map (fun q => q.id)).count x = 0 :=
        List.count_eq_zero.mpr hx
      have h2 : (((newOnes (knownIdsOf h o r) (rd0 :: rest)).map mkRelease).map
          (fun q => q.id)).count x
          = ((rd0 :: rest).map (fun rd => rd.id)).count x := by
        rw [List.map_map]
        have hcomp : (newOnes (knownIdsOf h o r) (rd0 :: rest)).map
            ((fun q : Release => q.id) ∘ mkRelease)
            = (newOnes (knownIdsOf h o r) (rd0 :: rest)).map (fun rd => rd.id) := rfl
        rw [hcomp]
        exact count_map_id_newOnes x _ _ hx
      rw [h1, h2, Nat.zero_add]

/-- C10 witness: two fetched records sharing the fresh id 7 are both
reported and both stored. -/
theorem duplicate_ids_reported_each_time_witness :
    ((check_for_new_releases h_empty "a" "w" (Except.ok [rdA_c10, rdB_c10])
        "t").2.map (fun t => t.2.2.id)).count 7
      = ([rdA_c10, rdB_c10].map (fun rd => rd.id)).count 7
  ∧ (((findRepo (check_for_new_releases h_empty "a" "w"
        (Except.ok [rdA_c10, rdB_c10]) "t").1.repositories "a" "w").getD
          ⟨"", "", none, []⟩).releases.map (fun q => q.id)).count 7
      = ([rdA_c10, rdB_c10].map (fun rd => rd.id)).count 7
  ∧ ([rdA_c10, rdB_c10].map (fun rd => rd.id)).count 7 = 2 := by
  have hd := duplicate_ids_reported_each_time h_empty "a" "w"
    [rdA_c10, rdB_c10] "t" 7 (by decide)
  exact ⟨hd.1, hd.2, by decide⟩

/-- C5 counterexample: when the summarizer raises on the first new release
(id 1), the cycle's pipeline aborts — the second new release (id 2)
receives neither an enrichment nor a notification attempt, so a failure in
one release's enrichment DOES prevent processing of subsequent releases. -/
theorem enrichment_failure_aborts_pipeline :
    processNewReleases summarizeFail1 notifyTrue "user@example.com"
        [("a", "w", rel1), ("a", "w", rel2)] = ([], true) := rfl

/-- C5 amended: only the notification step is isolated — as long as the
summarizer succeeds on every new release, every release is processed and
given exactly one delivery attempt, whatever the notifier returns for each
of them; an enrichment failure, in contrast, propagates and halts the
pipeline (see the counterexample). -/
theorem notification_failure_is_isolated
    (summarize : String → String → Release → Except Unit String)
    (notify : String → String → String → Release → String → Bool)
    (recipient : String) (l : List (String × String × Release))
    (hok : summarizeOk summarize l = true) :
    (processNewReleases summarize notify recipient l).2 = false
  ∧ (processNewReleases summarize notify recipient l).1.map
      (fun a => (a.owner, a.repo, a.release)) = l := by
  induction l with
  | nil => exact ⟨rfl, rfl⟩
  | cons t rest ih =>
    obtain ⟨o, r, rel⟩ := t
    rw [summarizeOk, List.all_cons, Bool.and_eq_true] at hok
    obtain ⟨hh, ht⟩ := hok
    cases hs : summarize o r rel with
    | error e => simp [hs] at hh
    | ok content =>
      have ihh := ih ht
      simp only [processNewReleases, hs]
      exact ⟨ihh.1, by simp [ihh.2]⟩

/-- C5 witness: with a summarizer that always succeeds and a notifier that
always fails to deliver, both releases are still processed and attempted. -/
theorem notification_failure_is_isolated_witness :
    (processNewReleases summarizeAllOk notifyFalse "user@example.com"
        [("a", "w", rel1), ("a", "w", rel2)]).2 = false
  ∧ (processNewReleases summarizeAllOk notifyFalse "user@example.com"
        [("a", "w", rel1), ("a", "w", rel2)]).1.map
          (fun a => (a.owner, a.repo, a.release))
      = [("a", "w", rel1), ("a", "w", rel2)] :=
  notification_failure_is_isolated summarizeAllOk notifyFalse
    "user@example.com" [("a", "w", rel1), ("a", "w", rel2)] rfl

/-- C2: cold-start suppression — every release discovered by the
initializing pass is recorded as known in the resulting state, the state
is persisted unconditionally at the end of the phase (the save log always
gains the final history, beyond whatever the per-repository checks wrote),
the phase itself performs no enrichment or notification (`initPhase` has
no summarizer or notifier collaborator, mirroring the code), and a
subsequent polling cycle against the same source data reports zero new
releases and makes zero notification attempts. -/
theorem initialize_cold_start_suppression (s : OrchState)
    (repos : List (String × String))
    (fetch : String → String → Except Unit (List RawRelease)) (now now' : String)
    (summarize : String → String → Release → Except Unit String)
    (notify : String → String → String → Release → String → Bool)
    (recipient : String) :
    recordedKnown (initPhase s repos fetch now).1.history
        (initPhase s repos fetch now).2 = true
  ∧ (initPhase s repos fetch now).1.saveLog
      = (check_all_s s repos fetch now).1.saveLog
        ++ [(initPhase s repos fetch now).1.history]
  ∧ (pollCycle (initPhase s repos fetch now).1 repos fetch now'
        summarize notify recipient).2.1 = []
  ∧ (pollCycle (initPhase s repos fetch now).1 repos fetch now'
        summarize notify recipient).2.2 = ([], false) := by
  have hrec : recordedKnown (check_all_s s repos fetch now).1.history
      (check_all_s s repos fetch now).2 = true := by
    rw [recordedKnown, List.all_eq_true]
    intro t ht
    rw [decide_eq_true_eq]
    exact check_all_s_output_known repos s fetch now t ht
  have hall : ∀ p ∈ repos, ∀ rd ∈ get_releases (fetch p.1 p.2),
      rd.id ∈ knownIdsOf (check_all_s s repos fetch now).1.history p.1 p.2 := by
    intro p hp rd hrd
    obtain ⟨o, r⟩ := p
    exact check_all_s_all_known repos s fetch now o r hp rd hrd
  have hsecond := check_all_s_no_new repos (initPhase s repos fetch now).1
    fetch now' (fun p hp rd hrd => hall p hp rd hrd)
  refine ⟨hrec, rfl, hsecond.1, ?_⟩
  show processNewReleases summarize notify recipient
    (check_all_s (initPhase s repos fetch now).1 repos fetch now').2 = ([], false)
  rw [hsecond.1]
  rfl
